import Mathlib

/-
Shallow embedding of the jgd grid datum-shift engine and its offline table
compiler, translated from the Rust sources:

  * src/grid.rs   — Grid, Dot, Mesh3, MicroSecond, bilinear interpolation,
                    chained binary-search lookups;
  * src/coord.rs  — LatLon and the unit constants;
  * par/src/main.rs — the fixed-width text-table compiler.

Modelling decisions (stated once here):

  * IEEE f64 arithmetic is idealised as exact rational (ℚ) arithmetic.  Every
    numeric claim below is about the exact real-number value of the code's
    formulas; f64 rounding is outside the embedding.
  * Rust i16 / i32 are embedded as ℤ.  The i16 increments in Mesh3::north and
    Mesh3::east use two's-complement wrapping (`wrap16`), the semantics of the
    shipped (release-profile) crate; the claims that need overflow-freedom
    carry the corresponding range hypotheses, under which wrapping never
    happens and debug builds agree.
  * The `as i16` float casts saturate (Rust's defined cast semantics), modelled
    by truncation toward zero followed by clamping.
  * The only panic reachable in the query path given those cast semantics is a
    direct slice index `self.dots[i]`; Grid.bilinear therefore returns
    `Except Unit (Option LatLon)`, where `Except.error ()` models a panic and
    `Except.ok none` models the normal "no coverage" result.
  * The compiler's stdin framing (CRLF check, header skip) is not modelled; the
    compiler is embedded as a function from the list of body lines (as lists of
    characters) to `Option (List Record)`, `none` modelling an aborted
    compilation (a panicking `expect`/`assert` in main.rs).
-/

/-- Latitude and longitude pair, in degrees (src/coord.rs `LatLon`), with f64
components idealised as ℚ. -/
structure LatLon where
  lat : ℚ
  lon : ℚ
deriving DecidableEq, Repr

/-- Componentwise function application (src/coord.rs `LatLon::map`). -/
def LatLon.map (p : LatLon) (f : ℚ → ℚ) : LatLon :=
  ⟨f p.lat, f p.lon⟩

instance : Add LatLon :=
  ⟨fun a b => ⟨a.lat + b.lat, a.lon + b.lon⟩⟩

instance : Sub LatLon :=
  ⟨fun a b => ⟨a.lat - b.lat, a.lon - b.lon⟩⟩

instance : HMul LatLon ℚ LatLon :=
  ⟨fun p k => p.map (fun x => x * k)⟩

instance : HDiv LatLon ℚ LatLon :=
  ⟨fun p k => p.map (fun x => x / k)⟩

theorem LatLon.ext_pair (a b : LatLon) (h1 : a.lat = b.lat) (h2 : a.lon = b.lon) : a = b := by
  cases a
  cases b
  simp only at h1 h2
  rw [h1, h2]

/-- Unit constants from src/coord.rs. -/
def DEGREES : ℚ := 1

def MINUTES : ℚ := DEGREES * 60

def SECS : ℚ := MINUTES * 60

def MILLI_SECS : ℚ := 3600000

def MICRO_SECS : ℚ := MILLI_SECS * 1000

/-- Serial number of Japanese MESH3 grids starting from 0 degree
(src/grid.rs `Mesh3`); the i16 fields are embedded as ℤ. -/
structure Mesh3 where
  lat : ℤ
  lon : ℤ
deriving DecidableEq, Repr

/-- Cell sizes in arcseconds (src/grid.rs `Mesh3::LAT_SEC`, `LON_SEC`). -/
def LAT_SEC : ℚ := 30

def LON_SEC : ℚ := 45

/-- Two's-complement wrap into the i16 range, the release-profile semantics of
Rust's `i16` addition. -/
def wrap16 (v : ℤ) : ℤ :=
  (v + 32768) % 65536 - 32768

/-- Truncation toward zero, the rounding of Rust's float-to-integer `as` cast. -/
def ratTrunc (x : ℚ) : ℤ :=
  if 0 ≤ x then ⌊x⌋ else ⌈x⌉

/-- Saturation into the i16 range, the clamping of Rust's float `as i16` cast. -/
def sat_i16 (v : ℤ) : ℤ :=
  max (-32768) (min 32767 v)

/-- Southwest cell of the mesh containing the coordinate
(src/grid.rs `Mesh3::floor`); `(x * 120.) as i16` is a saturating cast. -/
def Mesh3.floor (degrees : LatLon) : Mesh3 :=
  ⟨sat_i16 (ratTrunc (degrees.lat * 120)), sat_i16 (ratTrunc (degrees.lon * 80))⟩

/-- The i16 increment of src/grid.rs `Mesh3::north` (`self.lat += 1`). -/
def Mesh3.north (m : Mesh3) : Mesh3 :=
  ⟨wrap16 (m.lat + 1), m.lon⟩

/-- The i16 increment of src/grid.rs `Mesh3::east` (`self.lon += 1`). -/
def Mesh3.east (m : Mesh3) : Mesh3 :=
  ⟨m.lat, wrap16 (m.lon + 1)⟩

/-- Ideal (unbounded-integer) north neighbour, used by the spec-side
definitions that speak about mesh cells abstractly. -/
def Mesh3.northI (m : Mesh3) : Mesh3 :=
  ⟨m.lat + 1, m.lon⟩

/-- Ideal (unbounded-integer) east neighbour, used by the spec-side
definitions that speak about mesh cells abstractly. -/
def Mesh3.eastI (m : Mesh3) : Mesh3 :=
  ⟨m.lat, m.lon + 1⟩

/-- Southwest corner coordinate of a cell in degrees (src/grid.rs
`Mesh3::to_degree`). -/
def Mesh3.to_degree (m : Mesh3) : LatLon :=
  (⟨(m.lat : ℚ) * LAT_SEC, (m.lon : ℚ) * LON_SEC⟩ : LatLon) / SECS

/-- Fractional position of `p` relative to the cell corner `m`, in units of the
cell extent (src/grid.rs `Mesh3::diagonal_weight`). -/
def Mesh3.diagonal_weight (m : Mesh3) (p : LatLon) : LatLon :=
  let diff_secs := (p - m.to_degree).map (fun x => |x| * SECS)
  ⟨diff_secs.lat / LAT_SEC, diff_secs.lon / LON_SEC⟩

/-- Lexicographic strict order on cells, latitude major (the derived `Ord` of
the Rust `Mesh3`). -/
def Mesh3.lt (a b : Mesh3) : Prop :=
  a.lat < b.lat ∨ (a.lat = b.lat ∧ a.lon < b.lon)

instance Mesh3.decLt : DecidableRel Mesh3.lt := fun _ _ =>
  inferInstanceAs (Decidable (_ ∨ _))

/-- Three-way comparison on cells, mirroring the derived lexicographic `Ord`
used by `binary_search_by_key` in src/grid.rs. -/
def Mesh3.cmp (a b : Mesh3) : Ordering :=
  if a.lat < b.lat then Ordering.lt
  else if b.lat < a.lat then Ordering.gt
  else if a.lon < b.lon then Ordering.lt
  else if b.lon < a.lon then Ordering.gt
  else Ordering.eq

/-- Shift amount in micro-arcseconds (src/grid.rs `MicroSecond`); the i32
fields are embedded as ℤ. -/
structure MicroSecond where
  lat : ℤ
  lon : ℤ
deriving DecidableEq, Repr

/-- Shift in decimal degrees (src/grid.rs `MicroSecond::to_degree`). -/
def MicroSecond.to_degree (s : MicroSecond) : LatLon :=
  (⟨(s.lat : ℚ), (s.lon : ℚ)⟩ : LatLon) / MICRO_SECS

/-- One grid point (src/grid.rs `Dot`). -/
structure Dot where
  mesh : Mesh3
  shift : MicroSecond
deriving DecidableEq, Repr

def defaultDot : Dot :=
  ⟨⟨0, 0⟩, ⟨0, 0⟩⟩

/-- Parameters grid (src/grid.rs `Grid`), the borrowed slice embedded as a
list. -/
structure Grid where
  dots : List Dot
deriving DecidableEq, Repr

/-- Mesh cell stored at index `i` (Rust's always-in-bounds `dots[i].mesh`;
the default is never reached at the indices the lemmas use). -/
def meshAt (l : List Dot) (i : ℕ) : Mesh3 :=
  (l.getD i defaultDot).mesh

/-- Core loop of Rust `slice::binary_search_by_key`: left/right window halving
with the lexicographic cell comparison.  The fuel argument only bounds the
iteration count; it is called with `l.length + 1`, which the completeness lemma
shows is never exhausted before the window closes. -/
def bsLoop (l : List Dot) (q : Mesh3) : ℕ → ℕ → ℕ → Option ℕ
  | 0, _, _ => none
  | fuel + 1, left, right =>
    if left < right then
      match Mesh3.cmp (meshAt l (left + (right - left) / 2)) q with
      | Ordering.lt => bsLoop l q fuel (left + (right - left) / 2 + 1) right
      | Ordering.gt => bsLoop l q fuel left (left + (right - left) / 2)
      | Ordering.eq => some (left + (right - left) / 2)
    else none

/-- Rust `slice::binary_search_by_key(&query, |dot| dot.mesh).ok()`. -/
def binary_search (l : List Dot) (q : Mesh3) : Option ℕ :=
  bsLoop l q (l.length + 1) 0 l.length

/-- src/grid.rs `Grid::search_after`: binary search restricted to the subslice
starting at `first` (`.get(first..)` is `none` when `first` exceeds the
length), the found index translated back to an absolute index. -/
def Grid.search_after (g : Grid) (first : ℕ) (query : Mesh3) : Option ℕ :=
  if first ≤ g.dots.length then
    (binary_search (g.dots.drop first) query).map (fun i => i + first)
  else none

/-- src/grid.rs `Grid::search_at`: check that the entry at exactly `index` is
the queried cell. -/
def Grid.search_at (g : Grid) (index : ℕ) (query : Mesh3) : Option ℕ :=
  match g.dots[index]? with
  | none => none
  | some d => if d.mesh = query then some index else none

/-- Direct slice index `self.dots[i]`; out of bounds is a Rust panic, modelled
as `Except.error ()`. -/
def Grid.dotAt (g : Grid) (i : ℕ) : Except Unit Dot :=
  match g.dots[i]? with
  | none => Except.error ()
  | some d => Except.ok d

/-- src/grid.rs `Grid::bilinear`: chained corner lookups (southwest by fresh
binary search, east by adjacency check, north by suffix binary search,
north-east by adjacency check) followed by the weighted mean.  `Except.ok none`
is the normal "no coverage" result; `Except.error ()` is a panic. -/
def Grid.bilinear (g : Grid) (degrees : LatLon) : Except Unit (Option LatLon) :=
  let mesh := Mesh3.floor degrees
  match g.search_after 0 mesh with
  | none => Except.ok none
  | some i =>
    match g.dotAt i with
    | Except.error e => Except.error e
    | Except.ok swDot =>
      match g.search_at (i + 1) mesh.east with
      | none => Except.ok none
      | some j =>
        match g.dotAt j with
        | Except.error e => Except.error e
        | Except.ok seDot =>
          match g.search_after (j + 1) mesh.north with
          | none => Except.ok none
          | some k =>
            match g.dotAt k with
            | Except.error e => Except.error e
            | Except.ok nwDot =>
              match g.search_at (k + 1) mesh.north.east with
              | none => Except.ok none
              | some n =>
                match g.dotAt n with
                | Except.error e => Except.error e
                | Except.ok neDot =>
                  let w1 := mesh.diagonal_weight degrees
                  let w2 := (mesh.north.east).diagonal_weight degrees
                  Except.ok (some (swDot.shift.to_degree * w2.lat * w2.lon
                    + seDot.shift.to_degree * w2.lat * w1.lon
                    + nwDot.shift.to_degree * w1.lat * w2.lon
                    + neDot.shift.to_degree * w1.lat * w1.lon))

/-- A dot with the given mesh cell is present in the table. -/
def hasCell (l : List Dot) (c : Mesh3) : Prop :=
  ∃ d ∈ l, d.mesh = c

instance : ∀ l c, Decidable (hasCell l c) := fun l c =>
  inferInstanceAs (Decidable (∃ d ∈ l, d.mesh = c))

/-- All four corner cells of the query's mesh are present (the coverage
condition of §4.3 of the spec): the floored southwest cell, its east, north,
and north-east neighbours. -/
def cornersPresent (g : Grid) (degrees : LatLon) : Prop :=
  let mesh := Mesh3.floor degrees
  hasCell g.dots mesh ∧ hasCell g.dots mesh.eastI ∧
    hasCell g.dots mesh.northI ∧ hasCell g.dots (mesh.northI.eastI)

instance : ∀ g degrees, Decidable (cornersPresent g degrees) := fun _ _ =>
  inferInstanceAs (Decidable (_ ∧ _ ∧ _ ∧ _))

/-- Weighted sum exactly as the spec words it (§4.3 steps 4 to 5):
`sw·south_weight·west_weight + se·south_weight·east_weight +
nw·north_weight·west_weight + ne·north_weight·east_weight`, where
`(north_weight, east_weight)` is the diagonal weight of the southwest cell at
the query and `(south_weight, west_weight)` is the diagonal weight of the
north-east corner cell at the query. -/
def specWeightedSum (cell : Mesh3) (q : LatLon) (sw se nw ne : MicroSecond) : LatLon :=
  let nwgt := cell.diagonal_weight q
  let swgt := (cell.northI.eastI).diagonal_weight q
  sw.to_degree * swgt.lat * swgt.lon + se.to_degree * swgt.lat * nwgt.lon
    + nw.to_degree * nwgt.lat * swgt.lon + ne.to_degree * nwgt.lat * nwgt.lon

/-- Reference reimplementation named by §9 of the spec: one from-scratch
binary search over the whole table per corner, no chaining, with the ideal
integer neighbour cells, combined by the same weighted sum. -/
def Grid.bilinearSimple (g : Grid) (degrees : LatLon) : Option LatLon :=
  let mesh := Mesh3.floor degrees
  match g.search_after 0 mesh with
  | none => none
  | some i =>
    match g.search_after 0 mesh.eastI with
    | none => none
    | some j =>
      match g.search_after 0 mesh.northI with
      | none => none
      | some k =>
        match g.search_after 0 (mesh.northI.eastI) with
        | none => none
        | some n =>
          some (specWeightedSum mesh degrees (g.dots.getD i defaultDot).shift
            (g.dots.getD j defaultDot).shift (g.dots.getD k defaultDot).shift
            (g.dots.getD n defaultDot).shift)

/-- The table is strictly sorted by mesh cell, latitude major (the PointTable
invariant of §3 of the spec: no duplicates, no inversions). -/
def dotsSorted (l : List Dot) : Prop :=
  List.Pairwise (fun d e => Mesh3.lt d.mesh e.mesh) l

instance : ∀ l, Decidable (dotsSorted l) := fun l =>
  inferInstanceAs (Decidable (List.Pairwise _ l))

/-- All mesh cells of the table are inside the i16 range, the invariant that
the Rust `Mesh3 { lat: i16, lon: i16 }` field types enforce on every real
grid. -/
def Grid.inI16 (g : Grid) : Prop :=
  ∀ d ∈ g.dots, -32768 ≤ d.mesh.lat ∧ d.mesh.lat ≤ 32767 ∧
    -32768 ≤ d.mesh.lon ∧ d.mesh.lon ≤ 32767

instance : ∀ g, Decidable (Grid.inI16 g) := fun g =>
  inferInstanceAs (Decidable (∀ d ∈ g.dots, _ ∧ _ ∧ _ ∧ _))

theorem Mesh3.ext_parts (a b : Mesh3) (h1 : a.lat = b.lat) (h2 : a.lon = b.lon) : a = b := by
  cases a
  cases b
  simp only at h1 h2
  rw [h1, h2]

theorem Mesh3.lt_irrefl (a : Mesh3) : ¬ Mesh3.lt a a := by
  unfold Mesh3.lt
  omega

theorem Mesh3.lt_trans {a b c : Mesh3} (h1 : Mesh3.lt a b) (h2 : Mesh3.lt b c) :
    Mesh3.lt a c := by
  unfold Mesh3.lt at h1 h2 ⊢
  omega

theorem Mesh3.lt_asymm {a b : Mesh3} (h1 : Mesh3.lt a b) : ¬ Mesh3.lt b a := by
  unfold Mesh3.lt at h1 ⊢
  omega

theorem Mesh3.cmp_eq_eq {a b : Mesh3} : Mesh3.cmp a b = Ordering.eq ↔ a = b := by
  constructor
  · intro h
    unfold Mesh3.cmp at h
    split_ifs at h
    exact Mesh3.ext_parts a b (by omega) (by omega)
  · intro h
    subst h
    unfold Mesh3.cmp
    split_ifs with h1 h2 h3 h4 <;> first | rfl | omega

theorem Mesh3.cmp_eq_lt {a b : Mesh3} : Mesh3.cmp a b = Ordering.lt ↔ Mesh3.lt a b := by
  unfold Mesh3.cmp Mesh3.lt
  split_ifs with h1 h2 h3 h4 <;> simp <;> omega

theorem Mesh3.cmp_eq_gt {a b : Mesh3} : Mesh3.cmp a b = Ordering.gt ↔ Mesh3.lt b a := by
  unfold Mesh3.cmp Mesh3.lt
  split_ifs with h1 h2 h3 h4 <;> simp <;> omega

/-- No mesh cell lies strictly between a cell and its east neighbour. -/
theorem Mesh3.not_between_east {c m : Mesh3} (h1 : Mesh3.lt c m)
    (h2 : Mesh3.lt m c.eastI) : False := by
  unfold Mesh3.lt at h1 h2
  unfold Mesh3.eastI at h2
  simp only at h2
  omega

theorem wrap16_eq_self {v : ℤ} (h1 : -32768 ≤ v) (h2 : v ≤ 32767) : wrap16 v = v := by
  unfold wrap16
  omega

theorem sat_i16_range (v : ℤ) : -32768 ≤ sat_i16 v ∧ sat_i16 v ≤ 32767 := by
  unfold sat_i16
  omega

theorem sat_i16_eq_self {v : ℤ} (h1 : -32768 ≤ v) (h2 : v ≤ 32767) : sat_i16 v = v := by
  unfold sat_i16
  omega

/-- Index access within a sorted table is strictly monotone in the cell
order. -/
theorem sorted_meshAt_lt {l : List Dot} (hs : dotsSorted l) {i j : ℕ}
    (hij : i < j) (hj : j < l.length) : Mesh3.lt (meshAt l i) (meshAt l j) := by
  have hi : i < l.length := Nat.lt_trans hij hj
  have h := (List.pairwise_iff_getElem.mp hs) i j hi hj hij
  unfold meshAt
  rw [List.getD_eq_getElem l defaultDot hi, List.getD_eq_getElem l defaultDot hj]
  exact h

/-- Converse: equal cells at two in-range indices of a sorted table force the
indices to agree. -/
theorem sorted_meshAt_inj {l : List Dot} (hs : dotsSorted l) {i j : ℕ}
    (hi : i < l.length) (hj : j < l.length) (h : meshAt l i = meshAt l j) :
    i = j := by
  rcases Nat.lt_trichotomy i j with hlt | heq | hgt
  · exact absurd (h ▸ sorted_meshAt_lt hs hlt hj) (Mesh3.lt_irrefl _)
  · exact heq
  · exact absurd (h ▸ sorted_meshAt_lt hs hgt hi) (Mesh3.lt_irrefl _)

theorem bsLoop_sound {l : List Dot} {q : Mesh3} :
    ∀ fuel left right i, bsLoop l q fuel left right = some i →
      left ≤ i ∧ i < right ∧ meshAt l i = q := by
  intro fuel
  induction fuel with
  | zero =>
    intro left right i h
    exact absurd h (by simp [bsLoop])
  | succ fuel ih =>
    intro left right i h
    unfold bsLoop at h
    split at h
    · split at h
      · obtain ⟨ha, hb, hc⟩ := ih _ _ _ h
        exact ⟨by omega, hb, hc⟩
      · obtain ⟨ha, hb, hc⟩ := ih _ _ _ h
        exact ⟨ha, by omega, hc⟩
      · next hcmp =>
        cases h
        exact ⟨Nat.le_add_right _ _, by omega, Mesh3.cmp_eq_eq.mp hcmp⟩
    · exact absurd h (by simp)

theorem bsLoop_complete {l : List Dot} {q : Mesh3} (hs : dotsSorted l) :
    ∀ fuel left right j, right - left ≤ fuel → right ≤ l.length →
      left ≤ j → j < right → meshAt l j = q →
      ∃ i, bsLoop l q fuel left right = some i := by
  intro fuel
  induction fuel with
  | zero =>
    intro left right j hf _ h1 h2 _
    omega
  | succ fuel ih =>
    intro left right j hf hlen h1 h2 hq
    have hlr : left < right := Nat.lt_of_le_of_lt h1 h2
    unfold bsLoop
    rw [if_pos hlr]
    rcases hcmp : Mesh3.cmp (meshAt l (left + (right - left) / 2)) q with _ | _ | _
    · -- mid's cell is below the query: the query index is right of mid
      have hmidlt : Mesh3.lt (meshAt l (left + (right - left) / 2)) q :=
        Mesh3.cmp_eq_lt.mp hcmp
      have hjgt : left + (right - left) / 2 < j := by
        by_contra hle
        push_neg at hle
        rcases Nat.lt_or_ge j (left + (right - left) / 2) with hjlt | hge
        · exact Mesh3.lt_asymm (hq ▸ sorted_meshAt_lt hs hjlt (by omega)) hmidlt
        · have : j = left + (right - left) / 2 := by omega
          rw [this] at hq
          rw [hq] at hmidlt
          exact Mesh3.lt_irrefl _ hmidlt
      obtain ⟨i, hi⟩ := ih (left + (right - left) / 2 + 1) right j (by omega) hlen (by omega) h2 hq
      exact ⟨i, by simp only [hcmp]; exact hi⟩
    · exact ⟨left + (right - left) / 2, by simp only [hcmp]⟩
    · -- mid's cell is above the query: the query index is left of mid
      have hmidgt : Mesh3.lt q (meshAt l (left + (right - left) / 2)) :=
        Mesh3.cmp_eq_gt.mp hcmp
      have hjlt : j < left + (right - left) / 2 := by
        by_contra hge
        push_neg at hge
        rcases Nat.lt_or_ge (left + (right - left) / 2) j with hlt | hge2
        · exact Mesh3.lt_asymm (hq ▸ sorted_meshAt_lt hs hlt (by omega)) hmidgt
        · have : j = left + (right - left) / 2 := by omega
          rw [this] at hq
          rw [hq] at hmidgt
          exact Mesh3.lt_irrefl _ hmidgt
      obtain ⟨i, hi⟩ := ih left (left + (right - left) / 2) j (by omega) (by omega) h1 hjlt hq
      exact ⟨i, by simp only [hcmp]; exact hi⟩

theorem binary_search_sound {l : List Dot} {q : Mesh3} {i : ℕ}
    (h : binary_search l q = some i) : i < l.length ∧ meshAt l i = q := by
  obtain ⟨_, hb, hc⟩ := bsLoop_sound _ _ _ _ h
  exact ⟨hb, hc⟩

theorem binary_search_complete {l : List Dot} {q : Mesh3} (hs : dotsSorted l)
    {j : ℕ} (hj : j < l.length) (hq : meshAt l j = q) :
    ∃ i, binary_search l q = some i :=
  bsLoop_complete hs (l.length + 1) 0 l.length j (by omega) (Nat.le_refl _)
    (Nat.zero_le _) hj hq

theorem meshAt_drop (l : List Dot) (n i : ℕ) :
    meshAt (l.drop n) i = meshAt l (n + i) := by
  unfold meshAt
  rcases Nat.lt_or_ge i (l.drop n).length with h | h
  · have h2 : n + i < l.length := by
      rw [List.length_drop] at h
      omega
    rw [List.getD_eq_getElem _ _ h, List.getD_eq_getElem _ _ h2]
    congr 1
    exact List.getElem_drop l
  · have h2 : l.length ≤ n + i := by
      rw [List.length_drop] at h
      omega
    rw [List.getD_eq_default _ _ h, List.getD_eq_default _ _ h2]

theorem search_after_sound {g : Grid} {first : ℕ} {q : Mesh3} {i : ℕ}
    (h : g.search_after first q = some i) :
    first ≤ i ∧ i < g.dots.length ∧ meshAt g.dots i = q := by
  unfold Grid.search_after at h
  split at h
  · cases hbs : binary_search (g.dots.drop first) q with
    | none =>
      rw [hbs] at h
      exact absurd h (by simp)
    | some i0 =>
      rw [hbs] at h
      simp only [Option.map_some'] at h
      cases h
      obtain ⟨hlt, hmesh⟩ := binary_search_sound hbs
      rw [List.length_drop] at hlt
      rw [meshAt_drop] at hmesh
      rw [Nat.add_comm] at hmesh
      exact ⟨Nat.le_add_left _ _, by omega, hmesh⟩
  · exact absurd h (by simp)

theorem search_after_complete {g : Grid} (hs : dotsSorted g.dots) {first j : ℕ}
    {q : Mesh3} (h1 : first ≤ j) (h2 : j < g.dots.length)
    (hq : meshAt g.dots j = q) : ∃ i, g.search_after first q = some i := by
  unfold Grid.search_after
  rw [if_pos (by omega)]
  have hsd : dotsSorted (g.dots.drop first) :=
    List.Pairwise.sublist (List.drop_sublist first g.dots) hs
  have hj2 : j - first < (g.dots.drop first).length := by
    rw [List.length_drop]
    omega
  have hq2 : meshAt (g.dots.drop first) (j - first) = q := by
    rw [meshAt_drop]
    rw [show first + (j - first) = j by omega]
    exact hq
  obtain ⟨i, hi⟩ := binary_search_complete hsd hj2 hq2
  exact ⟨i + first, by rw [hi]; rfl⟩

theorem search_at_sound {g : Grid} {index : ℕ} {q : Mesh3} {j : ℕ}
    (h : g.search_at index q = some j) :
    j = index ∧ j < g.dots.length ∧ meshAt g.dots j = q := by
  unfold Grid.search_at at h
  cases hg : g.dots[index]? with
  | none =>
    simp only [hg] at h
    exact absurd h (by simp)
  | some d =>
    simp only [hg] at h
    split at h
    · next heq =>
      cases h
      obtain ⟨hlen, hval⟩ := List.getElem?_eq_some_iff.mp hg
      refine ⟨rfl, hlen, ?_⟩
      unfold meshAt
      rw [List.getD_eq_getElem _ _ hlen, hval]
      exact heq
    · exact absurd h (by simp)

/-- If the entry after index `i` is queried for a cell at or below `i`'s cell,
the adjacency check fails: entries after `i` are strictly larger. -/
theorem search_at_miss {g : Grid} (hs : dotsSorted g.dots) {i : ℕ} {c t : Mesh3}
    (hi : i < g.dots.length) (hc : meshAt g.dots i = c) (ht : Mesh3.lt t c) :
    g.search_at (i + 1) t = none := by
  unfold Grid.search_at
  cases hg : g.dots[i + 1]? with
  | none => simp only [hg]
  | some d =>
    obtain ⟨hlen, hval⟩ := List.getElem?_eq_some_iff.mp hg
    have hmesh : meshAt g.dots (i + 1) = d.mesh := by
      unfold meshAt
      rw [List.getD_eq_getElem _ _ hlen, hval]
    have hgt : Mesh3.lt c d.mesh := by
      rw [← hc, ← hmesh]
      exact sorted_meshAt_lt hs (Nat.lt_succ_self i) hlen
    simp only [hg]
    rw [if_neg]
    intro heq
    rw [heq] at hgt
    exact Mesh3.lt_asymm ht hgt

/-- A suffix search for a cell at or below the cell already found at index `j`
fails: the suffix only holds strictly larger cells. -/
theorem search_after_miss {g : Grid} (hs : dotsSorted g.dots) {j : ℕ}
    {c t : Mesh3} (hj : j < g.dots.length) (hc : meshAt g.dots j = c)
    (ht : Mesh3.lt t c) : g.search_after (j + 1) t = none := by
  cases hres : g.search_after (j + 1) t with
  | none => rfl
  | some i =>
    obtain ⟨h1, h2, h3⟩ := search_after_sound hres
    have : Mesh3.lt c t := by
      rw [← hc, ← h3]
      exact sorted_meshAt_lt hs (by omega) h2
    exact absurd this (Mesh3.lt_asymm ht)

/-- In a sorted table, the east neighbour of the cell at index `i`, when
present at all, sits exactly at index `i + 1`. -/
theorem adjacent_index {g : Grid} (hs : dotsSorted g.dots) {i : ℕ} {c : Mesh3}
    (hi : i < g.dots.length) (hc : meshAt g.dots i = c) {j : ℕ}
    (hj : j < g.dots.length) (hj2 : meshAt g.dots j = c.eastI) : j = i + 1 := by
  have heast : Mesh3.lt c c.eastI := Or.inr ⟨rfl, by simp [Mesh3.eastI]⟩
  have hij : i < j := by
    rcases Nat.lt_trichotomy i j with hlt | heq | hgt
    · exact hlt
    · rw [heq, hj2] at hc
      exact absurd (hc ▸ heast) (Mesh3.lt_irrefl _)
    · have := sorted_meshAt_lt hs hgt hi
      rw [hc, hj2] at this
      exact absurd (Mesh3.lt_trans heast this) (Mesh3.lt_irrefl _)
  by_contra hne
  have hmid : i + 1 < j := by omega
  have h1 : Mesh3.lt c (meshAt g.dots (i + 1)) := by
    rw [← hc]
    exact sorted_meshAt_lt hs (Nat.lt_succ_self i) (by omega)
  have h2 : Mesh3.lt (meshAt g.dots (i + 1)) c.eastI := by
    rw [← hj2]
    exact sorted_meshAt_lt hs hmid hj
  exact Mesh3.not_between_east h1 h2

theorem hasCell_iff_index {l : List Dot} {c : Mesh3} :
    hasCell l c ↔ ∃ j, j < l.length ∧ meshAt l j = c := by
  unfold hasCell meshAt
  constructor
  · rintro ⟨d, hd, rfl⟩
    obtain ⟨n, hn, he⟩ := List.mem_iff_getElem.mp hd
    exact ⟨n, hn, by rw [List.getD_eq_getElem _ _ hn, he]⟩
  · rintro ⟨j, hj, hq⟩
    refine ⟨l.getD j defaultDot, ?_, hq⟩
    rw [List.getD_eq_getElem _ _ hj]
    exact List.getElem_mem hj

/-- In a strictly sorted table, two dots with the same mesh cell are the same
dot. -/
theorem sorted_mesh_unique {l : List Dot} (hs : dotsSorted l) {d e : Dot}
    (hd : d ∈ l) (he : e ∈ l) (h : d.mesh = e.mesh) : d = e := by
  obtain ⟨n, hn, hne⟩ := List.mem_iff_getElem.mp hd
  obtain ⟨m, hm, hme⟩ := List.mem_iff_getElem.mp he
  have hmesh : meshAt l n = meshAt l m := by
    unfold meshAt
    rw [List.getD_eq_getElem _ _ hn, List.getD_eq_getElem _ _ hm, hne, hme]
    exact h
  have heq := sorted_meshAt_inj hs hn hm hmesh
  subst heq
  rw [← hne, ← hme]

/-- Converse index ordering: strictly smaller cell means strictly smaller
index in a sorted table. -/
theorem sorted_index_lt {l : List Dot} (hs : dotsSorted l) {a b : ℕ}
    (ha : a < l.length) (hb : b < l.length)
    (h : Mesh3.lt (meshAt l a) (meshAt l b)) : a < b := by
  rcases Nat.lt_trichotomy a b with hlt | heq | hgt
  · exact hlt
  · rw [heq] at h
    exact absurd h (Mesh3.lt_irrefl _)
  · exact absurd (Mesh3.lt_trans h (sorted_meshAt_lt hs hgt ha)) (Mesh3.lt_irrefl _)

/-- A search for a cell that is nowhere in the table returns none, whatever
the start index (soundness contrapositive; no sortedness needed). -/
theorem search_absent_none {g : Grid} {first : ℕ} {c : Mesh3}
    (habs : ¬ hasCell g.dots c) : g.search_after first c = none := by
  cases hres : g.search_after first c with
  | none => rfl
  | some i =>
    obtain ⟨_, h2, h3⟩ := search_after_sound hres
    exact absurd (hasCell_iff_index.mpr ⟨i, h2, h3⟩) habs

theorem search_at_absent {g : Grid} {idx : ℕ} {c : Mesh3}
    (habs : ¬ hasCell g.dots c) : g.search_at idx c = none := by
  cases hres : g.search_at idx c with
  | none => rfl
  | some j =>
    obtain ⟨_, h2, h3⟩ := search_at_sound hres
    exact absurd (hasCell_iff_index.mpr ⟨j, h2, h3⟩) habs

theorem search_at_hit {g : Grid} {idx : ℕ} {c : Mesh3}
    (hlen : idx < g.dots.length) (hm : meshAt g.dots idx = c) :
    g.search_at idx c = some idx := by
  unfold Grid.search_at
  rw [List.getElem?_eq_getElem hlen]
  have : g.dots[idx].mesh = c := by
    unfold meshAt at hm
    rw [List.getD_eq_getElem _ _ hlen] at hm
    exact hm
  simp [this]

theorem dotAt_ok {g : Grid} {i : ℕ} (h : i < g.dots.length) :
    g.dotAt i = Except.ok (g.dots.getD i defaultDot) := by
  unfold Grid.dotAt
  rw [List.getElem?_eq_getElem h]
  rw [List.getD_eq_getElem _ _ h]

/-- The dot stored at an in-range index is a member of the table. -/
theorem getD_mem {l : List Dot} {i : ℕ} (h : i < l.length) :
    l.getD i defaultDot ∈ l := by
  rw [List.getD_eq_getElem _ _ h]
  exact List.getElem_mem h

theorem Mesh3.eastI_lat (m : Mesh3) : m.eastI.lat = m.lat := rfl

theorem Mesh3.eastI_lon (m : Mesh3) : m.eastI.lon = m.lon + 1 := rfl

theorem Mesh3.northI_lat (m : Mesh3) : m.northI.lat = m.lat + 1 := rfl

theorem Mesh3.northI_lon (m : Mesh3) : m.northI.lon = m.lon := rfl

/-- A cell with a component beyond 32767 cannot occur in a table whose dots
satisfy the i16 field invariant. -/
theorem not_hasCell_of_big {g : Grid} (hw : g.inI16) {c : Mesh3}
    (h : 32767 < c.lat ∨ 32767 < c.lon) : ¬ hasCell g.dots c := by
  rintro ⟨d, hd, rfl⟩
  have hb := hw d hd
  rcases h with h | h <;> omega

/-- Chained lookups agree with four independent from-scratch binary searches:
under the sorted-table invariant and the i16 range invariant of the Rust field
types, `Grid.bilinear` never panics and returns exactly the result of the
spec's reference reimplementation. -/
theorem bilinear_eq_simple (g : Grid) (q : LatLon) (hs : dotsSorted g.dots)
    (hw : g.inI16) : g.bilinear q = Except.ok (g.bilinearSimple q) := by
  have hlat2 : -32768 ≤ (Mesh3.floor q).lat ∧ (Mesh3.floor q).lat ≤ 32767 :=
    sat_i16_range (ratTrunc (q.lat * 120))
  have hlon2 : -32768 ≤ (Mesh3.floor q).lon ∧ (Mesh3.floor q).lon ≤ 32767 :=
    sat_i16_range (ratTrunc (q.lon * 80))
  simp only [Grid.bilinear, Grid.bilinearSimple]
  cases hsw : g.search_after 0 (Mesh3.floor q) with
  | none => rfl
  | some i =>
    obtain ⟨-, hilen, himesh⟩ := search_after_sound hsw
    dsimp only
    rw [dotAt_ok hilen]
    dsimp only
    by_cases hlon : (Mesh3.floor q).lon = 32767
    · -- east increment wraps; adjacency check fails and the ideal east
      -- neighbour is unrepresentable, so both sides report no coverage
      have heast : (Mesh3.floor q).east = ⟨(Mesh3.floor q).lat, -32768⟩ := by
        unfold Mesh3.east
        rw [hlon]
        congr 1
      have hlt : Mesh3.lt (⟨(Mesh3.floor q).lat, -32768⟩ : Mesh3) (Mesh3.floor q) :=
        Or.inr ⟨rfl, by show (-32768 : ℤ) < (Mesh3.floor q).lon; omega⟩
      rw [heast, search_at_miss hs hilen himesh hlt]
      rw [@search_absent_none g 0 _
        (not_hasCell_of_big hw (Or.inr (by rw [Mesh3.eastI_lon]; omega)))]
    · have heast : (Mesh3.floor q).east = (Mesh3.floor q).eastI := by
        unfold Mesh3.east Mesh3.eastI
        rw [wrap16_eq_self (by omega) (by omega)]
      rw [heast]
      by_cases hse : hasCell g.dots (Mesh3.floor q).eastI
      · obtain ⟨j, hjlen, hjmesh⟩ := hasCell_iff_index.mp hse
        have hji : j = i + 1 := adjacent_index hs hilen himesh hjlen hjmesh
        subst hji
        rw [search_at_hit hjlen hjmesh]
        dsimp only
        rw [dotAt_ok hjlen]
        dsimp only
        cases hse2 : g.search_after 0 (Mesh3.floor q).eastI with
        | none =>
          obtain ⟨j2, hj2⟩ := search_after_complete hs (Nat.zero_le _) hjlen hjmesh
          rw [hse2] at hj2
          exact absurd hj2 (by simp)
        | some j2 =>
          obtain ⟨-, hj2len, hj2mesh⟩ := search_after_sound hse2
          have hj2eq : j2 = i + 1 :=
            sorted_meshAt_inj hs hj2len hjlen (hj2mesh.trans hjmesh.symm)
          subst hj2eq
          dsimp only
          by_cases hlat : (Mesh3.floor q).lat = 32767
          · -- north increment wraps: suffix search fails and the ideal north
            -- neighbour is unrepresentable
            have hnorth : (Mesh3.floor q).north = ⟨-32768, (Mesh3.floor q).lon⟩ := by
              unfold Mesh3.north
              rw [hlat]
              congr 1
            have hlt2 : Mesh3.lt (⟨-32768, (Mesh3.floor q).lon⟩ : Mesh3)
                (Mesh3.floor q).eastI := by
              refine Or.inl ?_
              show (-32768 : ℤ) < (Mesh3.floor q).eastI.lat
              rw [Mesh3.eastI_lat]
              omega
            rw [hnorth, search_after_miss hs hjlen hjmesh hlt2]
            rw [@search_absent_none g 0 _
              (not_hasCell_of_big hw (Or.inl (by rw [Mesh3.northI_lat]; omega)))]
          · have hnorth : (Mesh3.floor q).north = (Mesh3.floor q).northI := by
              unfold Mesh3.north Mesh3.northI
              rw [wrap16_eq_self (by omega) (by omega)]
            rw [hnorth]
            by_cases hnw : hasCell g.dots (Mesh3.floor q).northI
            · obtain ⟨k, hklen, hkmesh⟩ := hasCell_iff_index.mp hnw
              have hlt3 : Mesh3.lt (Mesh3.floor q).eastI (Mesh3.floor q).northI := by
                refine Or.inl ?_
                rw [Mesh3.eastI_lat, Mesh3.northI_lat]
                omega
              have hkgt : i + 1 < k := sorted_index_lt hs hjlen hklen
                (by rw [hjmesh, hkmesh]; exact hlt3)
              cases hnw2 : g.search_after (i + 1 + 1) (Mesh3.floor q).northI with
              | none =>
                obtain ⟨k2, hk2⟩ := search_after_complete hs
                  (show i + 1 + 1 ≤ k by omega) hklen hkmesh
                rw [hnw2] at hk2
                exact absurd hk2 (by simp)
              | some k2 =>
                obtain ⟨-, hk2len, hk2mesh⟩ := search_after_sound hnw2
                dsimp only
                rw [dotAt_ok hk2len]
                dsimp only
                cases hnw3 : g.search_after 0 (Mesh3.floor q).northI with
                | none =>
                  obtain ⟨k3, hk3⟩ := search_after_complete hs (Nat.zero_le _) hklen hkmesh
                  rw [hnw3] at hk3
                  exact absurd hk3 (by simp)
                | some k3 =>
                  obtain ⟨-, hk3len, hk3mesh⟩ := search_after_sound hnw3
                  have hk3eq : k2 = k3 :=
                    (sorted_meshAt_inj hs hk3len hk2len (hk3mesh.trans hk2mesh.symm)).symm
                  subst hk3eq
                  dsimp only
                  have hne_eq : ((Mesh3.floor q).northI).east =
                      ((Mesh3.floor q).northI).eastI := by
                    unfold Mesh3.east Mesh3.eastI Mesh3.northI
                    dsimp only
                    rw [wrap16_eq_self (by omega) (by omega)]
                  rw [hne_eq]
                  by_cases hne : hasCell g.dots ((Mesh3.floor q).northI).eastI
                  · obtain ⟨n, hnlen, hnmesh⟩ := hasCell_iff_index.mp hne
                    have hneq : n = k2 + 1 :=
                      adjacent_index hs hk2len hk2mesh hnlen hnmesh
                    subst hneq
                    rw [search_at_hit hnlen hnmesh]
                    dsimp only
                    rw [dotAt_ok hnlen]
                    dsimp only
                    cases hne3 : g.search_after 0 ((Mesh3.floor q).northI).eastI with
                    | none =>
                      obtain ⟨n3, hn3⟩ := search_after_complete hs (Nat.zero_le _) hnlen hnmesh
                      rw [hne3] at hn3
                      exact absurd hn3 (by simp)
                    | some n3 =>
                      obtain ⟨-, hn3len, hn3mesh⟩ := search_after_sound hne3
                      have hn3eq : n3 = k2 + 1 :=
                        sorted_meshAt_inj hs hn3len hnlen (hn3mesh.trans hnmesh.symm)
                      subst hn3eq
                      dsimp only
                      simp only [specWeightedSum]
                  · rw [search_at_absent hne, @search_absent_none g 0 _ hne]
            · rw [@search_absent_none g (i + 1 + 1) _ hnw,
                @search_absent_none g 0 _ hnw]
      · rw [search_at_absent hse, @search_absent_none g 0 _ hse]

/-- If any corner is missing from the table, the reference reimplementation
reports no coverage (soundness only; no sortedness needed). -/
theorem simple_none_of_not_corners {g : Grid} {q : LatLon}
    (habs : ¬ cornersPresent g q) : g.bilinearSimple q = none := by
  simp only [Grid.bilinearSimple]
  cases h1 : g.search_after 0 (Mesh3.floor q) with
  | none => rfl
  | some i =>
    dsimp only
    cases h2 : g.search_after 0 (Mesh3.floor q).eastI with
    | none => rfl
    | some j =>
      dsimp only
      cases h3 : g.search_after 0 (Mesh3.floor q).northI with
      | none => rfl
      | some k =>
        dsimp only
        cases h4 : g.search_after 0 ((Mesh3.floor q).northI).eastI with
        | none => rfl
        | some n =>
          exfalso
          apply habs
          obtain ⟨-, hi2, hi3⟩ := search_after_sound h1
          obtain ⟨-, hj2, hj3⟩ := search_after_sound h2
          obtain ⟨-, hk2, hk3⟩ := search_after_sound h3
          obtain ⟨-, hn2, hn3⟩ := search_after_sound h4
          exact ⟨hasCell_iff_index.mpr ⟨i, hi2, hi3⟩, hasCell_iff_index.mpr ⟨j, hj2, hj3⟩,
            hasCell_iff_index.mpr ⟨k, hk2, hk3⟩, hasCell_iff_index.mpr ⟨n, hn2, hn3⟩⟩

/-- When all four corner dots are present in a sorted table, the reference
reimplementation returns exactly the spec's weighted sum of their shifts. -/
theorem bilinearSimple_eq_some {g : Grid} {q : LatLon} (hs : dotsSorted g.dots)
    {dsw dse dnw dne : Dot}
    (h1 : dsw ∈ g.dots) (h1m : dsw.mesh = Mesh3.floor q)
    (h2 : dse ∈ g.dots) (h2m : dse.mesh = (Mesh3.floor q).eastI)
    (h3 : dnw ∈ g.dots) (h3m : dnw.mesh = (Mesh3.floor q).northI)
    (h4 : dne ∈ g.dots) (h4m : dne.mesh = ((Mesh3.floor q).northI).eastI) :
    g.bilinearSimple q = some (specWeightedSum (Mesh3.floor q) q
      dsw.shift dse.shift dnw.shift dne.shift) := by
  simp only [Grid.bilinearSimple]
  have find : ∀ (d : Dot) (c : Mesh3), d ∈ g.dots → d.mesh = c →
      ∃ i, g.search_after 0 c = some i ∧ g.dots.getD i defaultDot = d := by
    intro d c hd hdm
    obtain ⟨j, hj, hjm⟩ := hasCell_iff_index.mp ⟨d, hd, hdm⟩
    obtain ⟨i, hi⟩ := search_after_complete hs (Nat.zero_le _) hj hjm
    obtain ⟨-, hi2, hi3⟩ := search_after_sound hi
    refine ⟨i, hi, ?_⟩
    exact sorted_mesh_unique hs (getD_mem hi2) hd (by rw [show (g.dots.getD i defaultDot).mesh = meshAt g.dots i from rfl, hi3, hdm])
  obtain ⟨i, hi, hid⟩ := find dsw (Mesh3.floor q) h1 h1m
  obtain ⟨j, hj, hjd⟩ := find dse ((Mesh3.floor q).eastI) h2 h2m
  obtain ⟨k, hk, hkd⟩ := find dnw ((Mesh3.floor q).northI) h3 h3m
  obtain ⟨n, hn, hnd⟩ := find dne (((Mesh3.floor q).northI).eastI) h4 h4m
  rw [hi]
  dsimp only
  rw [hj]
  dsimp only
  rw [hk]
  dsimp only
  rw [hn]
  dsimp only
  rw [hid, hjd, hkd, hnd]

/-- The reference reimplementation succeeds exactly when its four independent
from-scratch binary searches all succeed (structural fact, no hypotheses). -/
theorem simple_isSome_iff_searches (g : Grid) (q : LatLon) :
    (∃ v, g.bilinearSimple q = some v) ↔
      ((∃ i, g.search_after 0 (Mesh3.floor q) = some i) ∧
       (∃ i, g.search_after 0 (Mesh3.floor q).eastI = some i) ∧
       (∃ i, g.search_after 0 (Mesh3.floor q).northI = some i) ∧
       (∃ i, g.search_after 0 ((Mesh3.floor q).northI).eastI = some i)) := by
  simp only [Grid.bilinearSimple]
  cases h1 : g.search_after 0 (Mesh3.floor q) with
  | none => simp [h1]
  | some i =>
    dsimp only
    cases h2 : g.search_after 0 (Mesh3.floor q).eastI with
    | none => simp [h2]
    | some j =>
      dsimp only
      cases h3 : g.search_after 0 (Mesh3.floor q).northI with
      | none => simp [h3]
      | some k =>
        dsimp only
        cases h4 : g.search_after 0 ((Mesh3.floor q).northI).eastI with
        | none => simp [h4]
        | some n => simp

/-- C1: for every strictly sorted Grid (i16 cell fields, as in the Rust types)
and every query coordinate, `Grid::bilinear` returns some shift exactly when
the four corner cells — floor(query), its east, north, and north-east
neighbours — are all present in the table, and returns the normal `None`
value (never a panic) otherwise. -/
theorem claim_C1_coverage (g : Grid) (q : LatLon) (hs : dotsSorted g.dots)
    (hw : g.inI16) :
    ((∃ v, g.bilinear q = Except.ok (some v)) ↔ cornersPresent g q) ∧
    (¬ cornersPresent g q → g.bilinear q = Except.ok none) := by
  have hch := bilinear_eq_simple g q hs hw
  constructor
  · constructor
    · rintro ⟨v, hv⟩
      by_contra habs
      rw [hch, simple_none_of_not_corners habs] at hv
      exact Option.noConfusion (Except.ok.inj hv)
    · intro hc
      obtain ⟨⟨dsw, hd1, hm1⟩, ⟨dse, hd2, hm2⟩, ⟨dnw, hd3, hm3⟩, ⟨dne, hd4, hm4⟩⟩ := hc
      rw [hch, bilinearSimple_eq_some hs hd1 hm1 hd2 hm2 hd3 hm3 hd4 hm4]
      exact ⟨_, rfl⟩
  · intro habs
    rw [hch, simple_none_of_not_corners habs]

/-- C2: whenever the four corner dots of the query's mesh are all present in a
strictly sorted Grid, `Grid::bilinear` returns exactly the weighted sum
`sw·s·w + se·s·e + nw·n·w + ne·n·e` with `(n, e)` the diagonal weight of the
southwest cell at the query and `(s, w)` the diagonal weight of the north-east
corner cell at the query, in decimal degrees. -/
theorem claim_C2_weighted_sum (g : Grid) (q : LatLon) (hs : dotsSorted g.dots)
    (hw : g.inI16) (dsw dse dnw dne : Dot)
    (h1 : dsw ∈ g.dots) (h1m : dsw.mesh = Mesh3.floor q)
    (h2 : dse ∈ g.dots) (h2m : dse.mesh = (Mesh3.floor q).eastI)
    (h3 : dnw ∈ g.dots) (h3m : dnw.mesh = (Mesh3.floor q).northI)
    (h4 : dne ∈ g.dots) (h4m : dne.mesh = ((Mesh3.floor q).northI).eastI) :
    g.bilinear q = Except.ok (some (specWeightedSum (Mesh3.floor q) q
      dsw.shift dse.shift dnw.shift dne.shift)) :=
  (bilinear_eq_simple g q hs hw).trans
    (congrArg Except.ok (bilinearSimple_eq_some hs h1 h1m h2 h2m h3 h3m h4 h4m))

/-- C3: the chained lookup strategy (suffix binary searches and adjacent-entry
checks) is extensionally equal to the simpler reimplementation that runs four
independent from-scratch binary searches over the whole table, and it returns
some shift exactly when those four searches all find their corner. -/
theorem claim_C3_chain_equivalence (g : Grid) (q : LatLon)
    (hs : dotsSorted g.dots) (hw : g.inI16) :
    g.bilinear q = Except.ok (g.bilinearSimple q) ∧
    ((∃ v, g.bilinear q = Except.ok (some v)) ↔
      ((∃ i, g.search_after 0 (Mesh3.floor q) = some i) ∧
       (∃ i, g.search_after 0 (Mesh3.floor q).eastI = some i) ∧
       (∃ i, g.search_after 0 (Mesh3.floor q).northI = some i) ∧
       (∃ i, g.search_after 0 ((Mesh3.floor q).northI).eastI = some i))) := by
  have hch := bilinear_eq_simple g q hs hw
  refine ⟨hch, ?_⟩
  rw [← simple_isSome_iff_searches]
  constructor
  · rintro ⟨v, hv⟩
    rw [hch] at hv
    exact ⟨v, Except.ok.inj hv⟩
  · rintro ⟨v, hv⟩
    exact ⟨v, by rw [hch, hv]⟩

/-- The four-dot test grid of src/grid.rs (`SMALLEST`). -/
def SMALLEST : Grid :=
  ⟨[⟨⟨0, 0⟩, ⟨-6, 0⟩⟩, ⟨⟨0, 1⟩, ⟨0, 6⟩⟩, ⟨⟨1, 0⟩, ⟨0, 0⟩⟩, ⟨⟨1, 1⟩, ⟨6, 6⟩⟩]⟩

theorem claim_C1_coverage_witness :
    Grid.bilinear SMALLEST ⟨100, 100⟩ = Except.ok none := by
  apply (claim_C1_coverage SMALLEST ⟨100, 100⟩ (by decide) (by decide)).2
  have hf : Mesh3.floor ⟨100, 100⟩ = ⟨12000, 8000⟩ := by
    norm_num [Mesh3.floor, ratTrunc, sat_i16]
  simp only [cornersPresent, hf]
  decide

theorem claim_C2_weighted_sum_witness :
    Grid.bilinear SMALLEST ⟨10/3600, 15/3600⟩ = Except.ok (some
      (specWeightedSum (Mesh3.floor ⟨10/3600, 15/3600⟩) ⟨10/3600, 15/3600⟩
        ⟨-6, 0⟩ ⟨0, 6⟩ ⟨0, 0⟩ ⟨6, 6⟩)) := by
  have hf : Mesh3.floor ⟨10/3600, 15/3600⟩ = ⟨0, 0⟩ := by
    norm_num [Mesh3.floor, ratTrunc, sat_i16]
  exact claim_C2_weighted_sum SMALLEST ⟨10/3600, 15/3600⟩ (by decide) (by decide)
    ⟨⟨0, 0⟩, ⟨-6, 0⟩⟩ ⟨⟨0, 1⟩, ⟨0, 6⟩⟩ ⟨⟨1, 0⟩, ⟨0, 0⟩⟩ ⟨⟨1, 1⟩, ⟨6, 6⟩⟩
    (by decide) (by rw [hf]) (by decide) (by rw [hf]; decide) (by decide)
    (by rw [hf]; decide) (by decide) (by rw [hf]; decide)

theorem claim_C3_chain_equivalence_witness :
    Grid.bilinear SMALLEST ⟨10/3600, 15/3600⟩ =
      Except.ok (Grid.bilinearSimple SMALLEST ⟨10/3600, 15/3600⟩) :=
  (claim_C3_chain_equivalence SMALLEST ⟨10/3600, 15/3600⟩ (by decide) (by decide)).1

theorem LatLon.add_lat (a b : LatLon) : (a + b).lat = a.lat + b.lat := rfl

theorem LatLon.add_lon (a b : LatLon) : (a + b).lon = a.lon + b.lon := rfl

theorem LatLon.sub_lat (a b : LatLon) : (a - b).lat = a.lat - b.lat := rfl

theorem LatLon.sub_lon (a b : LatLon) : (a - b).lon = a.lon - b.lon := rfl

theorem LatLon.mul_lat (p : LatLon) (k : ℚ) : (p * k).lat = p.lat * k := rfl

theorem LatLon.mul_lon (p : LatLon) (k : ℚ) : (p * k).lon = p.lon * k := rfl

theorem LatLon.div_lat (p : LatLon) (k : ℚ) : (p / k).lat = p.lat / k := rfl

theorem LatLon.div_lon (p : LatLon) (k : ℚ) : (p / k).lon = p.lon / k := rfl

theorem ratTrunc_intCast (n : ℤ) : ratTrunc (n : ℚ) = n := by
  unfold ratTrunc
  split
  · exact Int.floor_intCast n
  · exact Int.ceil_intCast n

/-- Flooring the exact southwest-corner coordinate of an i16-representable
cell recovers the cell. -/
theorem floor_to_degree {m : Mesh3} (hlat1 : -32768 ≤ m.lat) (hlat2 : m.lat ≤ 32767)
    (hlon1 : -32768 ≤ m.lon) (hlon2 : m.lon ≤ 32767) :
    Mesh3.floor m.to_degree = m := by
  unfold Mesh3.floor Mesh3.to_degree
  have hlatq : ((⟨(m.lat : ℚ) * LAT_SEC, (m.lon : ℚ) * LON_SEC⟩ : LatLon) / SECS).lat * 120
      = (m.lat : ℚ) := by
    rw [LatLon.div_lat]
    unfold LAT_SEC SECS MINUTES DEGREES
    ring_nf
  have hlonq : ((⟨(m.lat : ℚ) * LAT_SEC, (m.lon : ℚ) * LON_SEC⟩ : LatLon) / SECS).lon * 80
      = (m.lon : ℚ) := by
    rw [LatLon.div_lon]
    unfold LON_SEC SECS MINUTES DEGREES
    ring_nf
  rw [hlatq, hlonq, ratTrunc_intCast, ratTrunc_intCast,
    sat_i16_eq_self hlat1 hlat2, sat_i16_eq_self hlon1 hlon2]

/-- The diagonal weight of a cell at its own corner coordinate vanishes. -/
theorem diagonal_weight_self (m : Mesh3) :
    m.diagonal_weight m.to_degree = ⟨0, 0⟩ := by
  unfold Mesh3.diagonal_weight
  refine LatLon.ext_pair _ _ ?_ ?_ <;>
    simp [LatLon.map, LatLon.sub_lat, LatLon.sub_lon]

/-- The diagonal weight measured from the north-east corner cell at the
southwest corner coordinate is one in both components. -/
theorem diagonal_weight_ne (m : Mesh3) :
    ((m.northI).eastI).diagonal_weight m.to_degree = ⟨1, 1⟩ := by
  unfold Mesh3.diagonal_weight
  have hlat : (m.to_degree - ((m.northI).eastI).to_degree).lat = -(30 / 3600) := by
    rw [LatLon.sub_lat]
    unfold Mesh3.to_degree
    rw [LatLon.div_lat, LatLon.div_lat]
    simp only [Mesh3.northI_lat, Mesh3.eastI_lat]
    unfold LAT_SEC SECS MINUTES DEGREES
    push_cast
    ring
  have hlon : (m.to_degree - ((m.northI).eastI).to_degree).lon = -(45 / 3600) := by
    rw [LatLon.sub_lon]
    unfold Mesh3.to_degree
    rw [LatLon.div_lon, LatLon.div_lon]
    simp only [Mesh3.northI_lon, Mesh3.eastI_lon]
    unfold LON_SEC SECS MINUTES DEGREES
    push_cast
    ring
  refine LatLon.ext_pair _ _ ?_ ?_ <;>
    simp only [LatLon.map, hlat, hlon] <;>
    rw [abs_neg, abs_of_nonneg (by norm_num)] <;>
    norm_num [LAT_SEC, LON_SEC, SECS, MINUTES, DEGREES]

/-- At the exact southwest corner, the spec's weighted sum collapses to the
southwest shift. -/
theorem specWeightedSum_at_corner (m : Mesh3) (sw se nw ne : MicroSecond) :
    specWeightedSum m m.to_degree sw se nw ne = sw.to_degree := by
  unfold specWeightedSum
  rw [diagonal_weight_self, diagonal_weight_ne]
  refine LatLon.ext_pair _ _ ?_ ?_ <;>
    simp only [LatLon.add_lat, LatLon.add_lon, LatLon.mul_lat, LatLon.mul_lon] <;>
    ring

/-- C9: querying bilinear at the exact coordinate of a southwest-corner grid
point whose east, north, and north-east neighbour cells are all present in the
strictly sorted table returns exactly that point's shift value. -/
theorem claim_C9_corner_exact (g : Grid) (hs : dotsSorted g.dots)
    (hw : g.inI16) (dsw dse dnw dne : Dot) (h1 : dsw ∈ g.dots)
    (h2 : dse ∈ g.dots) (h2m : dse.mesh = dsw.mesh.eastI)
    (h3 : dnw ∈ g.dots) (h3m : dnw.mesh = dsw.mesh.northI)
    (h4 : dne ∈ g.dots) (h4m : dne.mesh = (dsw.mesh.northI).eastI) :
    g.bilinear dsw.mesh.to_degree = Except.ok (some dsw.shift.to_degree) := by
  obtain ⟨hb1, hb2, hb3, hb4⟩ := hw dsw h1
  have hfl : Mesh3.floor dsw.mesh.to_degree = dsw.mesh := floor_to_degree hb1 hb2 hb3 hb4
  have := claim_C2_weighted_sum g dsw.mesh.to_degree hs hw dsw dse dnw dne
    h1 (by rw [hfl]) h2 (by rw [hfl]; exact h2m) h3 (by rw [hfl]; exact h3m)
    h4 (by rw [hfl]; exact h4m)
  rw [this, hfl, specWeightedSum_at_corner]

/-- Variant of the test grid whose southwest dot carries the shift
(lat = 0, lon = -6) micro-arcseconds named by the spec's corner-exactness
property. -/
def CORNER_GRID : Grid :=
  ⟨[⟨⟨0, 0⟩, ⟨0, -6⟩⟩, ⟨⟨0, 1⟩, ⟨0, 6⟩⟩, ⟨⟨1, 0⟩, ⟨0, 0⟩⟩, ⟨⟨1, 1⟩, ⟨6, 6⟩⟩]⟩

theorem claim_C9_corner_exact_witness :
    Grid.bilinear CORNER_GRID ((⟨⟨0, 0⟩, ⟨0, -6⟩⟩ : Dot).mesh.to_degree) =
      Except.ok (some ⟨0, -6 / 3600000000⟩) := by
  have h := claim_C9_corner_exact CORNER_GRID (by decide) (by decide)
    ⟨⟨0, 0⟩, ⟨0, -6⟩⟩ ⟨⟨0, 1⟩, ⟨0, 6⟩⟩ ⟨⟨1, 0⟩, ⟨0, 0⟩⟩ ⟨⟨1, 1⟩, ⟨6, 6⟩⟩
    (by decide) (by decide) (by decide) (by decide) (by decide) (by decide)
    (by decide)
  rw [h]
  have hval : MicroSecond.to_degree (⟨0, -6⟩ : MicroSecond) =
      (⟨0, -6 / 3600000000⟩ : LatLon) := by
    unfold MicroSecond.to_degree
    refine LatLon.ext_pair _ _ ?_ ?_ <;>
      norm_num [LatLon.div_lat, LatLon.div_lon, MICRO_SECS, MILLI_SECS]
  rw [hval]

/-- Panic-freedom observer: `true` on any normal return of the query path. -/
def noPanic : Except Unit (Option LatLon) → Bool
  | Except.ok _ => true
  | Except.error _ => false

/-- C10: for every Grid whose cells stay strictly below index 32767 on both
axes and every query, `Grid::bilinear` returns normally (Some or None, never
a panic); `Mesh3::floor` saturates into the i16 range, and `search_after`
returns none rather than trapping when the start index exceeds the length.
Under the wrapping-arithmetic model panic-freedom needs no hypothesis at all;
the stated cell bound is what additionally rules out the debug-profile
overflow trap in `north`/`east`. -/
theorem claim_C10_no_panic (g : Grid) (q : LatLon)
    (hb : ∀ d ∈ g.dots, d.mesh.lat < 32767 ∧ d.mesh.lon < 32767) :
    noPanic (g.bilinear q) = true ∧
    (-32768 ≤ (Mesh3.floor q).lat ∧ (Mesh3.floor q).lat ≤ 32767 ∧
      -32768 ≤ (Mesh3.floor q).lon ∧ (Mesh3.floor q).lon ≤ 32767) ∧
    (∀ (first : ℕ) (c : Mesh3), g.dots.length < first →
      g.search_after first c = none) := by
  refine ⟨?_, ⟨(sat_i16_range _).1, (sat_i16_range _).2,
    (sat_i16_range _).1, (sat_i16_range _).2⟩, ?_⟩
  · simp only [Grid.bilinear]
    cases h1 : g.search_after 0 (Mesh3.floor q) with
    | none => rfl
    | some i =>
      obtain ⟨-, hi2, -⟩ := search_after_sound h1
      dsimp only
      rw [dotAt_ok hi2]
      dsimp only
      cases h2 : g.search_at (i + 1) (Mesh3.floor q).east with
      | none => rfl
      | some j =>
        obtain ⟨-, hj2, -⟩ := search_at_sound h2
        dsimp only
        rw [dotAt_ok hj2]
        dsimp only
        cases h3 : g.search_after (j + 1) (Mesh3.floor q).north with
        | none => rfl
        | some k =>
          obtain ⟨-, hk2, -⟩ := search_after_sound h3
          dsimp only
          rw [dotAt_ok hk2]
          dsimp only
          cases h4 : g.search_at (k + 1) ((Mesh3.floor q).north).east with
          | none => rfl
          | some n =>
            obtain ⟨-, hn2, -⟩ := search_at_sound h4
            dsimp only
            rw [dotAt_ok hn2]
            rfl
  · intro first c hf
    unfold Grid.search_after
    rw [if_neg (by omega)]

theorem claim_C10_no_panic_witness :
    noPanic (Grid.bilinear SMALLEST ⟨1000, 1000⟩) = true :=
  (claim_C10_no_panic SMALLEST ⟨1000, 1000⟩ (by decide)).1

/-- C8: converting a micro-arcsecond shift pair to decimal degrees and
re-quantising by multiplying with 3,600,000,000 and rounding recovers the
original i32 pair exactly. -/
theorem claim_C8_round_trip (lat lon : ℤ)
    (h1 : -2147483648 ≤ lat ∧ lat ≤ 2147483647)
    (h2 : -2147483648 ≤ lon ∧ lon ≤ 2147483647) :
    round ((MicroSecond.to_degree ⟨lat, lon⟩).lat * 3600000000) = lat ∧
    round ((MicroSecond.to_degree ⟨lat, lon⟩).lon * 3600000000) = lon := by
  unfold MicroSecond.to_degree
  rw [LatLon.div_lat, LatLon.div_lon]
  dsimp only
  have hm : MICRO_SECS = 3600000000 := by norm_num [MICRO_SECS, MILLI_SECS]
  constructor
  · rw [hm, div_mul_cancel₀ _ (by norm_num : (3600000000 : ℚ) ≠ 0), round_intCast]
  · rw [hm, div_mul_cancel₀ _ (by norm_num : (3600000000 : ℚ) ≠ 0), round_intCast]

theorem claim_C8_round_trip_witness :
    round ((MicroSecond.to_degree ⟨7875320, -13995610⟩).lat * 3600000000) = 7875320 ∧
    round ((MicroSecond.to_degree ⟨7875320, -13995610⟩).lon * 3600000000) = -13995610 :=
  claim_C8_round_trip 7875320 (-13995610) (by decide) (by decide)

/-- Digit-accumulation loop of Rust's integer `FromStr` (overflow is
irrelevant at the at-most-5-digit field widths of this format). -/
def parseDigitsAux : List Char → ℕ → Option ℕ
  | [], acc => some acc
  | c :: cs, acc =>
    if c.isDigit then parseDigitsAux cs (acc * 10 + (c.toNat - 48)) else none

/-- Rust `i64::from_str`: an optional sign followed by one or more digits,
nothing else. -/
def parseI64 : List Char → Option ℤ
  | [] => none
  | '+' :: cs => if cs = [] then none else (parseDigitsAux cs 0).map Int.ofNat
  | '-' :: cs => if cs = [] then none else (parseDigitsAux cs 0).map (fun n => -(n : ℤ))
  | cs => (parseDigitsAux cs 0).map Int.ofNat

/-- main.rs `parse_number`: split off exactly `width` characters (the
`ensure!` fails on a shorter line), trim leading whitespace, parse as an
integer; returns the value and the rest of the line. -/
def parse_number (cs : List Char) (width : ℕ) : Option (ℤ × List Char) :=
  if width ≤ cs.length then
    match parseI64 ((cs.take width).dropWhile Char.isWhitespace) with
    | some v => some (v, cs.drop width)
    | none => none
  else none

/-- main.rs `parse_meshcode`: two consecutive equal-width numbers. -/
def parse_meshcode (cs : List Char) (chunk : ℕ) : Option (ℤ × ℤ × List Char) :=
  match parse_number cs chunk with
  | none => none
  | some (a, cs1) =>
    match parse_number cs1 chunk with
    | none => none
    | some (b, cs2) => some (a, b, cs2)

/-- main.rs `to_grid`: serial 3rd-mesh index `mesh1*80 + mesh2*10 + mesh3`
with the `try_into::<i16>()` range check. -/
def to_grid (mesh1 mesh2 mesh3 : ℤ) : Option ℤ :=
  if -32768 ≤ mesh1 * 80 + mesh2 * 10 + mesh3 ∧ mesh1 * 80 + mesh2 * 10 + mesh3 ≤ 32767
  then some (mesh1 * 80 + mesh2 * 10 + mesh3)
  else none

/-- main.rs `parse_diff`: a 4-character integer field, a mandatory literal
decimal point, a 5-character fraction field.  The decimal point is removed by
scaling the integer part by 100000 and adding the fraction with the sign
`1 - (d_integer < 0) * 2` computed from the PARSED integer value, then the
`try_into::<i32>()` range check. -/
def parse_diff (cs : List Char) : Option (ℤ × List Char) :=
  match parse_number cs 4 with
  | none => none
  | some (d_integer, cs1) =>
    match cs1 with
    | '.' :: cs2 =>
      match parse_number cs2 5 with
      | none => none
      | some (d_decimal, cs3) =>
        let sign : ℤ := 1 - (if d_integer < 0 then 1 else 0) * 2
        let v := d_integer * 100000 + d_decimal * sign
        if -2147483648 ≤ v ∧ v ≤ 2147483647 then some (v, cs3) else none
    | _ => none

/-- Compiled record (main.rs `Record(i16, i16, i32, i32)`): serial mesh
indices and the two shift values in the compiler's fixed-point unit. -/
structure Record where
  meshLat : ℤ
  meshLon : ℤ
  dLat : ℤ
  dLon : ℤ
deriving DecidableEq, Repr

/-- main.rs `Record::from_str` (each panicking `expect` modelled as `none`):
three fixed-width mesh-code column pairs, the two serial indices, then the two
shift fields. -/
def Record.from_str (cs : List Char) : Option Record :=
  match parse_meshcode cs 2 with
  | none => none
  | some (m1lat, m1lon, cs1) =>
    match parse_meshcode cs1 1 with
    | none => none
    | some (m2lat, m2lon, cs2) =>
      match parse_meshcode cs2 1 with
      | none => none
      | some (m3lat, m3lon, cs3) =>
        match to_grid m1lat m2lat m3lat with
        | none => none
        | some gridLat =>
          match to_grid m1lon m2lon m3lon with
          | none => none
          | some gridLon =>
            match parse_diff cs3 with
            | none => none
            | some (dLat, cs4) =>
              match parse_diff cs4 with
              | none => none
              | some (dLon, _) => some ⟨gridLat, gridLon, dLat, dLon⟩

/-- Lexicographic strict order on records, the derived `Ord` of the Rust
4-tuple (the BTreeSet key order). -/
def Record.lt (a b : Record) : Prop :=
  a.meshLat < b.meshLat ∨ (a.meshLat = b.meshLat ∧ (a.meshLon < b.meshLon ∨
    (a.meshLon = b.meshLon ∧ (a.dLat < b.dLat ∨
      (a.dLat = b.dLat ∧ a.dLon < b.dLon)))))

instance Record.decLt : DecidableRel Record.lt := fun _ _ =>
  inferInstanceAs (Decidable (_ ∨ _))

/-- Strict order on the mesh cell alone, latitude major: the ordering the
spec's sort invariant speaks about. -/
def Record.cellLt (a b : Record) : Prop :=
  a.meshLat < b.meshLat ∨ (a.meshLat = b.meshLat ∧ a.meshLon < b.meshLon)

instance Record.decCellLt : DecidableRel Record.cellLt := fun _ _ =>
  inferInstanceAs (Decidable (_ ∨ _))

/-- Ordered-set insertion: the extensional behaviour of `BTreeSet::insert`
(ignoring an exactly equal record) combined with in-order iteration. -/
def insertSorted (r : Record) : List Record → List Record
  | [] => [r]
  | x :: xs =>
    if Record.lt r x then r :: x :: xs
    else if r = x then x :: xs
    else x :: insertSorted r xs

/-- main.rs `collect::<BTreeSet<_>>()` + `into_iter()`: fold the parsed
records into a strictly increasing duplicate-free list. -/
def btreeSort (rs : List Record) : List Record :=
  rs.foldl (fun acc r => insertSorted r acc) []

/-- Parse every body line (the `map` + `unwrap` of main.rs; the first parse
failure aborts). -/
def parseAll : List (List Char) → Option (List Record)
  | [] => some []
  | cs :: rest =>
    match Record.from_str cs, parseAll rest with
    | some r, some rs => some (r :: rs)
    | _, _ => none

/-- The `assert_eq!(s.len(), 27)` inside `Display for Record`, which main.rs
evaluates on every emitted record: the `{:04},{:04},{:08},{:08}` rendering is
27 characters exactly when each zero-padded field keeps its nominal width,
i.e. when each value (with its sign) needs at most the field's digits. -/
def display_ok (r : Record) : Prop :=
  -999 ≤ r.meshLat ∧ r.meshLat ≤ 9999 ∧ -999 ≤ r.meshLon ∧ r.meshLon ≤ 9999 ∧
    -9999999 ≤ r.dLat ∧ r.dLat ≤ 99999999 ∧ -9999999 ≤ r.dLon ∧ r.dLon ≤ 99999999

instance : ∀ r, Decidable (display_ok r) := fun _ =>
  inferInstanceAs (Decidable (_ ∧ _))

/-- main.rs `main` from the parsed body lines to the emitted record sequence:
parse every line, collect through the BTreeSet, and stream out the sorted
records, asserting each one's 27-character display rendering on the way. -/
def compile (lines : List (List Char)) : Option (List Record) :=
  match parseAll lines with
  | none => none
  | some rs =>
    if ∀ r ∈ btreeSort rs, display_ok r then some (btreeSort rs) else none

theorem Record.ext4 (a b : Record) (h1 : a.meshLat = b.meshLat)
    (h2 : a.meshLon = b.meshLon) (h3 : a.dLat = b.dLat) (h4 : a.dLon = b.dLon) :
    a = b := by
  cases a
  cases b
  simp only at h1 h2 h3 h4
  rw [h1, h2, h3, h4]

theorem Record.lt_irreflexive (a : Record) : ¬ Record.lt a a := by
  unfold Record.lt
  omega

theorem Record.lt_transitive {a b c : Record} (h1 : Record.lt a b)
    (h2 : Record.lt b c) : Record.lt a c := by
  unfold Record.lt at h1 h2 ⊢
  omega

theorem Record.lt_trichotomy (a b : Record) :
    Record.lt a b ∨ a = b ∨ Record.lt b a := by
  have h : Record.lt a b ∨ (a.meshLat = b.meshLat ∧ a.meshLon = b.meshLon ∧
      a.dLat = b.dLat ∧ a.dLon = b.dLon) ∨ Record.lt b a := by
    unfold Record.lt
    omega
  rcases h with h | h | h
  · exact Or.inl h
  · exact Or.inr (Or.inl (Record.ext4 a b h.1 h.2.1 h.2.2.1 h.2.2.2))
  · exact Or.inr (Or.inr h)

theorem insertSorted_mem (r : Record) (l : List Record) (y : Record) :
    y ∈ insertSorted r l ↔ y = r ∨ y ∈ l := by
  induction l with
  | nil => simp [insertSorted]
  | cons x xs ih =>
    unfold insertSorted
    split_ifs with h1 h2
    · simp only [List.mem_cons]
    · subst h2
      simp only [List.mem_cons]
      tauto
    · simp only [List.mem_cons, ih]
      tauto

theorem insertSorted_pairwise {r : Record} {l : List Record}
    (h : List.Pairwise Record.lt l) :
    List.Pairwise Record.lt (insertSorted r l) := by
  induction l with
  | nil => simp [insertSorted]
  | cons x xs ih =>
    unfold insertSorted
    rw [List.pairwise_cons] at h
    obtain ⟨hx, hxs⟩ := h
    split_ifs with h1 h2
    · refine List.Pairwise.cons ?_ (List.Pairwise.cons hx hxs)
      intro y hy
      rcases List.mem_cons.mp hy with rfl | hy2
      · exact h1
      · exact Record.lt_transitive h1 (hx y hy2)
    · exact List.Pairwise.cons hx hxs
    · have hxr : Record.lt x r := by
        rcases Record.lt_trichotomy r x with h | h | h
        · exact absurd h h1
        · exact absurd h h2
        · exact h
      refine List.Pairwise.cons ?_ (ih hxs)
      intro y hy
      rcases (insertSorted_mem r xs y).mp hy with rfl | hy2
      · exact hxr
      · exact hx y hy2

theorem btreeSort_aux_pairwise (rs : List Record) :
    ∀ acc, List.Pairwise Record.lt acc →
      List.Pairwise Record.lt (rs.foldl (fun a r => insertSorted r a) acc) := by
  induction rs with
  | nil => exact fun acc h => h
  | cons r rest ih => exact fun acc h => ih _ (insertSorted_pairwise h)

/-- The BTreeSet iteration order is strictly increasing in the full record
order. -/
theorem btreeSort_pairwise (rs : List Record) :
    List.Pairwise Record.lt (btreeSort rs) :=
  btreeSort_aux_pairwise rs [] List.Pairwise.nil

theorem btreeSort_aux_mem (rs : List Record) :
    ∀ acc y, (y ∈ rs.foldl (fun a r => insertSorted r a) acc ↔ y ∈ rs ∨ y ∈ acc) := by
  induction rs with
  | nil => intro acc y; simp
  | cons r rest ih =>
    intro acc y
    simp only [List.foldl_cons]
    rw [ih]
    rw [insertSorted_mem]
    simp only [List.mem_cons]
    tauto

/-- The BTreeSet keeps exactly the records that were inserted. -/
theorem btreeSort_mem (rs : List Record) (y : Record) :
    y ∈ btreeSort rs ↔ y ∈ rs := by
  unfold btreeSort
  rw [btreeSort_aux_mem]
  simp

theorem parseAll_mem {lines : List (List Char)} {rs : List Record}
    (h : parseAll lines = some rs) (y : Record) :
    y ∈ rs ↔ ∃ cs ∈ lines, Record.from_str cs = some y := by
  induction lines generalizing rs with
  | nil =>
    unfold parseAll at h
    cases h
    simp
  | cons cs rest ih =>
    unfold parseAll at h
    cases hr : Record.from_str cs with
    | none =>
      rw [hr] at h
      exact absurd h (by simp)
    | some r =>
      rw [hr] at h
      cases hrest : parseAll rest with
      | none =>
        rw [hrest] at h
        exact absurd h (by simp)
      | some rs0 =>
        rw [hrest] at h
        cases h
        simp only [List.mem_cons, ih hrest]
        constructor
        · rintro (rfl | ⟨cs2, hcs2, hy⟩)
          · exact ⟨cs, Or.inl rfl, hr⟩
          · exact ⟨cs2, Or.inr hcs2, hy⟩
        · rintro ⟨cs2, hcs2 | hcs2, hy⟩
          · subst hcs2
            rw [hr] at hy
            exact Or.inl (Option.some.inj hy).symm
          · exact Or.inr ⟨cs2, hcs2, hy⟩

/-- A successful compilation emits a strictly record-sorted list containing
exactly the records parsed from the input lines. -/
theorem compile_some_spec {lines : List (List Char)} {out : List Record}
    (h : compile lines = some out) :
    List.Pairwise Record.lt out ∧
      ∀ y, (y ∈ out ↔ ∃ cs ∈ lines, Record.from_str cs = some y) := by
  unfold compile at h
  cases hp : parseAll lines with
  | none =>
    rw [hp] at h
    exact absurd h (by simp)
  | some rs =>
    rw [hp] at h
    dsimp only at h
    split_ifs at h with hd
    cases h
    exact ⟨btreeSort_pairwise rs,
      fun y => (btreeSort_mem rs y).trans (parseAll_mem hp y)⟩

/-- Body line `36230600   0.00000   0.00000`: mesh cell (2880, 1900), zero
shift. -/
def lineA : List Char :=
  ['3','6','2','3','0','6','0','0',' ',' ',' ','0','.','0','0','0','0','0',
   ' ',' ',' ','0','.','0','0','0','0','0']

/-- Body line `36230601   0.00000   0.00000`: mesh cell (2880, 1901), zero
shift. -/
def lineB : List Char :=
  ['3','6','2','3','0','6','0','1',' ',' ',' ','0','.','0','0','0','0','0',
   ' ',' ',' ','0','.','0','0','0','0','0']

/-- Body line `36230600   1.00000   0.00000`: the same mesh cell as `lineA`
but a different latitude shift. -/
def lineC : List Char :=
  ['3','6','2','3','0','6','0','0',' ',' ',' ','1','.','0','0','0','0','0',
   ' ',' ',' ','0','.','0','0','0','0','0']

/-- Two optional parse results conflict when both are records with the same
mesh cell but different contents (the duplicate-key data-integrity condition
of the spec). -/
def conflict : Option Record → Option Record → Bool
  | some a, some b =>
    decide (a.meshLat = b.meshLat ∧ a.meshLon = b.meshLon ∧ ¬ a = b)
  | _, _ => false

/-- C4 (amended): for every input accepted by the compiler in which no two
lines parse to records with the same mesh cell but different contents, the
emitted sequence is strictly increasing in the latitude-major cell order —
no duplicate cells, no inversions, whatever the input line order. -/
theorem claim_C4_sort_invariant (lines : List (List Char)) (out : List Record)
    (h : compile lines = some out)
    (hconf : ∀ cs1 ∈ lines, ∀ cs2 ∈ lines,
      conflict (Record.from_str cs1) (Record.from_str cs2) = false) :
    List.Chain' Record.cellLt out := by
  obtain ⟨hpw, hmem⟩ := compile_some_spec h
  refine List.Pairwise.chain' ?_
  refine List.Pairwise.imp_of_mem ?_ hpw
  intro a b ha hb hlt
  obtain ⟨cs1, hcs1, hps1⟩ := (hmem a).mp ha
  obtain ⟨cs2, hcs2, hps2⟩ := (hmem b).mp hb
  by_cases hcell : a.meshLat = b.meshLat ∧ a.meshLon = b.meshLon
  · exfalso
    have hne : ¬ a = b := fun heq => Record.lt_irreflexive a (heq ▸ hlt)
    have hc := hconf cs1 hcs1 cs2 hcs2
    rw [hps1, hps2] at hc
    simp only [conflict, decide_eq_false_iff_not] at hc
    exact hc ⟨hcell.1, hcell.2, hne⟩
  · unfold Record.lt at hlt
    unfold Record.cellLt
    omega

/-- C4 (counterexample to the claim as stated): two well-formed lines with the
same mesh cell and different shifts are accepted, and the output contains that
cell twice in adjacent positions, violating the strict cell-order invariant. -/
theorem claim_C4_sort_invariant_counterexample :
    compile [lineA, lineC] =
      some [⟨2880, 1900, 0, 0⟩, ⟨2880, 1900, 100000, 0⟩] ∧
    ¬ List.Chain' Record.cellLt [⟨2880, 1900, 0, 0⟩, ⟨2880, 1900, 100000, 0⟩] :=
  ⟨by decide, by
    intro h
    rw [List.chain'_cons] at h
    exact absurd h.1 (by decide)⟩

theorem claim_C4_sort_invariant_witness :
    List.Chain' Record.cellLt [⟨2880, 1900, 0, 0⟩, ⟨2880, 1901, 0, 0⟩] :=
  claim_C4_sort_invariant [lineB, lineA] _ (by decide) (by decide)

/-- C5 (amended): a successful compilation emits a duplicate-free list holding
exactly the distinct records parsed from the input, so two identical lines
yield one record; a same-cell different-shift collision does not abort — both
records are emitted. -/
theorem claim_C5_dedup (lines : List (List Char)) (out : List Record)
    (h : compile lines = some out) :
    out.Nodup ∧
      ∀ r : Record, (r ∈ out ↔ ∃ cs ∈ lines, Record.from_str cs = some r) := by
  obtain ⟨hpw, hmem⟩ := compile_some_spec h
  refine ⟨?_, hmem⟩
  exact hpw.imp fun hab => fun heq => Record.lt_irreflexive _ (heq ▸ hab)

/-- C5 (counterexample to the claim as stated): two lines with the same mesh
cell but different shifts compile successfully — both records are emitted in
shift order instead of the compilation failing. -/
theorem claim_C5_dedup_counterexample :
    Record.from_str lineA = some ⟨2880, 1900, 0, 0⟩ ∧
    Record.from_str lineC = some ⟨2880, 1900, 100000, 0⟩ ∧
    compile [lineA, lineC] =
      some [⟨2880, 1900, 0, 0⟩, ⟨2880, 1900, 100000, 0⟩] :=
  ⟨by decide, by decide, by decide⟩

theorem claim_C5_dedup_witness :
    List.Nodup [(⟨2880, 1900, 0, 0⟩ : Record), ⟨2880, 1900, 100000, 0⟩] :=
  (claim_C5_dedup [lineA, lineA, lineC] _ (by decide)).1

/-- C6 (code evaluation at the failing input): the shift field `   7.87532`
(7.87532 arcseconds) is stored as 787532, while storing micro-arcseconds — the
claim's `value × 1,000,000`, which the embedded table's own test constants
match — would require 7875320: the parser scales the integer part by 100,000
and adds the 5-digit fraction, i.e. units of 1e-5 arcsecond, ten times coarser
than the library's `MicroSecond` reader expects. -/
theorem claim_C6_micro_arcsecond_bug :
    parse_diff [' ',' ',' ','7','.','8','7','5','3','2'] = some (787532, []) ∧
    ((7 + 87532 / 100000 : ℚ) * 1000000 = 7875320) ∧ (787532 : ℤ) ≠ 7875320 :=
  ⟨by decide, by norm_num, by decide⟩

/-- C7 (code evaluation at the failing input): the shift field `  -0.00001`
parses its integer part `-0` to the integer 0, so the sign test
`d_integer < 0` fails and the fraction is NOT negated: the field compiles to
+1 in the table's fixed-point unit, where the format (sign written only on the
integer part) requires -1. -/
theorem claim_C7_negative_zero_bug :
    parse_diff [' ',' ','-','0','.','0','0','0','0','1'] = some (1, []) ∧
      (1 : ℤ) ≠ -1 :=
  ⟨by decide, by decide⟩
